import Mathlib

/-!
Shallow embedding of the tabular TD(λ) learner for 2048 (src/play.py):
the per-state action-value node, the knowledge base, the epsilon-greedy
policy, the TD(λ) target computation and the episode loop, together with
theorems settling the specification claims.
-/

/-- A board fingerprint: the flattened tuple of cell values
(`tuple(observation)` in the source). -/
abbrev GameState := List ℤ

/-- Python list subscription `xs[i]` for an integer `i`: nonnegative indices
address from the front, indices in `[-len, -1]` address from the back, and
anything else is an `IndexError`, modelled as `none`. -/
def pyGet {α : Type} (xs : List α) (i : ℤ) : Option α :=
  if 0 ≤ i then xs[i.toNat]?
  else if -i ≤ (xs.length : ℤ) then xs[xs.length - (-i).toNat]?
  else none

/-- `Node`: per-state record of the quality estimate and visit count for each
of the four actions (`Node.__init__` makes both lists of length 4). -/
structure Node where
  action_quality : List ℚ
  action_count : List ℕ
deriving DecidableEq

/-- `Node()`: qualities initialised to 0.0, counts to 0, four slots each. -/
def Node.init : Node :=
  { action_quality := List.replicate 4 0, action_count := List.replicate 4 0 }

/-- The structural invariant every node built by the program satisfies:
both per-action arrays have the fixed length 4. -/
def Node.WF (n : Node) : Prop :=
  n.action_quality.length = 4 ∧ n.action_count.length = 4

/-- `Node.get_estimate`: `self.action_quality[action]` with Python list
indexing; `none` models an uncaught `IndexError`. -/
def Node.get_estimate (n : Node) (action : ℤ) : Option ℚ :=
  pyGet n.action_quality action

/-- `Node.update_action`: increment the action's count, move its quality
toward the observed score by the step size `alpha`. -/
def Node.update_action (n : Node) (action : Fin 4) (score alpha : ℚ) : Node :=
  { action_quality := n.action_quality.set action
      (n.action_quality.getD action 0 +
        (score - n.action_quality.getD action 0) * alpha),
    action_count := n.action_count.set action (n.action_count.getD action 0 + 1) }

/-- `Node.visited`: `sum(self.action_count)`. -/
def Node.visited (n : Node) : ℕ := n.action_count.sum

/-- Python `max` over a nonempty list (the argument is never empty in the
program: `action_quality` always has 4 entries). -/
def listMax : List ℚ → ℚ
  | [] => 0
  | x :: xs => xs.foldl max x

/-- The `joint_best_actions` list built inside `Node.best_action`: the indices
whose quality equals the maximal quality, in increasing order. -/
def Node.joint_best_actions (n : Node) : List ℕ :=
  (List.range n.action_quality.length).filter
    (fun i => n.action_quality.getD i 0 = listMax n.action_quality)

/-- `Node.best_action`: `random.choice(joint_best_actions)`, modelled by an
explicit draw `t` reduced modulo the number of tied actions, so that the
uniform draw over `0 ≤ t < length` ranges over exactly the tied actions. -/
def Node.best_action (n : Node) (t : ℕ) : ℕ :=
  n.joint_best_actions.getD (t % n.joint_best_actions.length) 0

/-- Association-list lookup with decidable equality on keys, modelling the
Python dict access `self.nodes[state]` / `state in self.nodes`. -/
def lookupState : List (GameState × Node) → GameState → Option Node
  | [], _ => none
  | p :: ps, s => if p.1 = s then some p.2 else lookupState ps s

/-- `Knowledge`: the dict from state fingerprint to node, in insertion
order. -/
structure Knowledge where
  nodes : List (GameState × Node)
deriving DecidableEq

/-- `Knowledge.__init__`: the empty dict. -/
def Knowledge.init : Knowledge := ⟨[]⟩

/-- Every node stored in the table has the fixed 4-slot shape. -/
def Knowledge.WF (k : Knowledge) : Prop :=
  ∀ p ∈ k.nodes, p.2.WF

/-- `Knowledge.get_node_for_state`: dict lookup; `none` models the Python
`None` sentinel returned on `KeyError`. -/
def Knowledge.get_node_for_state (k : Knowledge) (state : GameState) : Option Node :=
  lookupState k.nodes state

/-- `if state not in self.nodes: self.nodes[state] = Node()` — lazily insert a
fresh node (at the end, matching dict insertion order). -/
def Knowledge.insertFresh (k : Knowledge) (state : GameState) : Knowledge :=
  if lookupState k.nodes state = none then ⟨k.nodes ++ [(state, Node.init)]⟩ else k

/-- `self.nodes[state].update_action(action, score, alpha)`: update the node
stored for `state` in place. -/
def Knowledge.updateAt (k : Knowledge) (state : GameState) (action : Fin 4)
    (score alpha : ℚ) : Knowledge :=
  ⟨k.nodes.map fun p =>
    if p.1 = state then (p.1, p.2.update_action action score alpha) else p⟩

/-- `Knowledge.add`: lazily create the node for `state`, then apply its
`update_action`. -/
def Knowledge.add (k : Knowledge) (state : GameState) (action : Fin 4)
    (score alpha : ℚ) : Knowledge :=
  (k.insertFresh state).updateAt state action score alpha

/-- `Knowledge.get_estimate`: when the state is unknown the `None` sentinel
raises `AttributeError`, which is caught and turned into 0.0; an `IndexError`
raised by a present node's indexing is not caught and propagates (`none`). -/
def Knowledge.get_estimate (k : Knowledge) (state : GameState) (action : ℤ) :
    Option ℚ :=
  match k.get_node_for_state state with
  | none => some 0
  | some n => n.get_estimate action

/-- `Knowledge.size`: `len(self.nodes)`. -/
def Knowledge.size (k : Knowledge) : ℕ := k.nodes.length

/-- The visit count recorded for one (state, action) pair, 0 when the state
is unknown. -/
def kbCount (k : Knowledge) (state : GameState) (a : Fin 4) : ℕ :=
  match k.get_node_for_state state with
  | none => 0
  | some n => n.action_count.getD a 0

/-- A sequence of `update_action` calls applied to one node. -/
def Node.applyUpdates (n : Node) (ops : List (Fin 4 × ℚ × ℚ)) : Node :=
  ops.foldl (fun m o => m.update_action o.1 o.2.1 o.2.2) n

/-- A sequence of `Knowledge.add` calls. -/
def Knowledge.applyAdds (k : Knowledge) (ops : List (GameState × Fin 4 × ℚ × ℚ)) :
    Knowledge :=
  ops.foldl (fun m o => m.add o.1 o.2.1 o.2.2.1 o.2.2.2) k

/-! ## Helper lemmas about list updates and lookups -/

lemma getD_set_eq {α : Type} (l : List α) {i : ℕ} (h : i < l.length) (a d : α) :
    (l.set i a).getD i d = a := by
  simp [List.getD_eq_getElem?_getD, List.getElem?_set_self h]

lemma getD_set_ne {α : Type} (l : List α) {i j : ℕ} (h : i ≠ j) (a d : α) :
    (l.set i a).getD j d = l.getD j d := by
  simp [List.getD_eq_getElem?_getD, List.getElem?_set_ne h]

lemma init_count_getD (a : Fin 4) : Node.init.action_count.getD (a : ℕ) 0 = 0 := by
  fin_cases a <;> rfl

lemma init_quality_getD (a : Fin 4) : Node.init.action_quality.getD (a : ℕ) 0 = 0 := by
  fin_cases a <;> rfl

lemma Node.update_WF {n : Node} (hn : n.WF) (a : Fin 4) (v alpha : ℚ) :
    (n.update_action a v alpha).WF := by
  obtain ⟨h1, h2⟩ := hn
  exact ⟨by simp [Node.update_action, h1], by simp [Node.update_action, h2]⟩

lemma Node.init_WF : Node.init.WF := by constructor <;> simp [Node.init]

lemma Node.count_update_self {n : Node} (hn : n.WF) (a : Fin 4) (v alpha : ℚ) :
    (n.update_action a v alpha).action_count.getD a 0 = n.action_count.getD a 0 + 1 := by
  rw [Node.update_action]
  exact getD_set_eq _ (by rw [hn.2]; exact a.isLt) _ _

lemma Node.count_update_ne (n : Node) {a b : Fin 4} (hab : b ≠ a) (v alpha : ℚ) :
    (n.update_action a v alpha).action_count.getD b 0 = n.action_count.getD b 0 :=
  getD_set_ne _ (fun h => hab (Fin.ext h.symm)) _ _

lemma Node.quality_update_self {n : Node} (hn : n.WF) (a : Fin 4) (v alpha : ℚ) :
    (n.update_action a v alpha).action_quality.getD a 0
      = n.action_quality.getD a 0 + (v - n.action_quality.getD a 0) * alpha := by
  rw [Node.update_action]
  exact getD_set_eq _ (by rw [hn.1]; exact a.isLt) _ _

lemma Node.quality_update_ne (n : Node) {a b : Fin 4} (hab : b ≠ a) (v alpha : ℚ) :
    (n.update_action a v alpha).action_quality.getD b 0 = n.action_quality.getD b 0 :=
  getD_set_ne _ (fun h => hab (Fin.ext h.symm)) _ _

lemma Node.count_le_update (n : Node) (a b : Fin 4) (v alpha : ℚ) :
    n.action_count.getD a 0 ≤ (n.update_action b v alpha).action_count.getD a 0 := by
  rw [Node.update_action]
  by_cases hab : (b : ℕ) = (a : ℕ)
  · by_cases hl : (a : ℕ) < n.action_count.length
    · simp only [hab]
      rw [getD_set_eq _ hl]
      omega
    · rw [List.set_eq_of_length_le (by omega : n.action_count.length ≤ (b : ℕ))]
  · exact le_of_eq (getD_set_ne _ hab _ _).symm

lemma Node.count_le_applyUpdates (n : Node) (a : Fin 4) (ops : List (Fin 4 × ℚ × ℚ)) :
    n.action_count.getD a 0 ≤ (n.applyUpdates ops).action_count.getD a 0 := by
  induction ops generalizing n with
  | nil => simp [Node.applyUpdates]
  | cons o t ih =>
      calc n.action_count.getD a 0
          ≤ (n.update_action o.1 o.2.1 o.2.2).action_count.getD a 0 :=
            Node.count_le_update n a o.1 o.2.1 o.2.2
        _ ≤ ((n.update_action o.1 o.2.1 o.2.2).applyUpdates t).action_count.getD a 0 := ih _
        _ = (n.applyUpdates (o :: t)).action_count.getD a 0 := rfl

lemma lookupState_append_of_none {l : List (GameState × Node)} {s : GameState}
    (m : List (GameState × Node)) (h : lookupState l s = none) :
    lookupState (l ++ m) s = lookupState m s := by
  induction l with
  | nil => simp [lookupState]
  | cons p t ih =>
      by_cases hp : p.1 = s
      · rw [lookupState, if_pos hp] at h; exact absurd h (by simp)
      · rw [lookupState, if_neg hp] at h
        rw [List.cons_append, lookupState, if_neg hp]
        exact ih h

lemma lookupState_append_of_some {l : List (GameState × Node)} {s : GameState}
    {nd : Node} (m : List (GameState × Node)) (h : lookupState l s = some nd) :
    lookupState (l ++ m) s = some nd := by
  induction l with
  | nil => simp [lookupState] at h
  | cons p t ih =>
      by_cases hp : p.1 = s
      · rw [lookupState, if_pos hp] at h
        rw [List.cons_append, lookupState, if_pos hp]
        exact h
      · rw [lookupState, if_neg hp] at h
        rw [List.cons_append, lookupState, if_neg hp]
        exact ih h

lemma lookupState_map_update (l : List (GameState × Node)) (st : GameState)
    (a : Fin 4) (v alpha : ℚ) (s2 : GameState) :
    lookupState (l.map fun p =>
        if p.1 = st then (p.1, p.2.update_action a v alpha) else p) s2
      = if s2 = st then (lookupState l s2).map (fun nd => nd.update_action a v alpha)
        else lookupState l s2 := by
  induction l with
  | nil => by_cases h : s2 = st <;> simp [lookupState, h]
  | cons p t ih =>
      by_cases hps : p.1 = st
      · by_cases hp : p.1 = s2
        · have h2 : s2 = st := by rw [← hp, hps]
          simp [lookupState, hps, hp, h2]
        · have h2 : ¬ s2 = st := fun hh => hp (by rw [hps, hh])
          have h3 : ¬ st = s2 := fun hh => h2 hh.symm
          simp [lookupState, hps, hp, h2, h3, ih]
      · by_cases hp : p.1 = s2
        · have h2 : ¬ s2 = st := fun hh => hps (by rw [hp, hh])
          simp [lookupState, hps, hp, h2]
        · simp [lookupState, hps, hp, ih]

lemma lookupState_mem {l : List (GameState × Node)} {s : GameState} {nd : Node}
    (h : lookupState l s = some nd) : (s, nd) ∈ l := by
  induction l with
  | nil => simp [lookupState] at h
  | cons p t ih =>
      by_cases hp : p.1 = s
      · rw [lookupState, if_pos hp] at h
        obtain rfl : p.2 = nd := by injection h
        exact hp ▸ (by simp : (p.1, p.2) ∈ p :: t)
      · rw [lookupState, if_neg hp] at h
        exact List.mem_cons_of_mem _ (ih h)

lemma get_node_add_self (k : Knowledge) (st : GameState) (a : Fin 4) (v alpha : ℚ) :
    (k.add st a v alpha).get_node_for_state st
      = some (((k.get_node_for_state st).getD Node.init).update_action a v alpha) := by
  unfold Knowledge.add Knowledge.insertFresh Knowledge.updateAt Knowledge.get_node_for_state
  by_cases h : lookupState k.nodes st = none
  · rw [if_pos h]
    show lookupState ((k.nodes ++ [(st, Node.init)]).map
        (fun p => if p.1 = st then (p.1, p.2.update_action a v alpha) else p)) st = _
    rw [List.map_append]
    have h1 : lookupState (k.nodes.map
        (fun p => if p.1 = st then (p.1, p.2.update_action a v alpha) else p)) st = none := by
      rw [lookupState_map_update, if_pos rfl, h]; rfl
    rw [lookupState_append_of_none _ h1, h]
    simp [lookupState]
  · obtain ⟨nd, hnd⟩ := Option.ne_none_iff_exists'.mp h
    rw [if_neg h]
    show lookupState (k.nodes.map
        (fun p => if p.1 = st then (p.1, p.2.update_action a v alpha) else p)) st = _
    rw [lookupState_map_update, if_pos rfl, hnd]
    rfl

lemma get_node_add_ne (k : Knowledge) {st s2 : GameState} (h : s2 ≠ st)
    (a : Fin 4) (v alpha : ℚ) :
    (k.add st a v alpha).get_node_for_state s2 = k.get_node_for_state s2 := by
  unfold Knowledge.add Knowledge.insertFresh Knowledge.updateAt Knowledge.get_node_for_state
  by_cases hn : lookupState k.nodes st = none
  · rw [if_pos hn]
    show lookupState ((k.nodes ++ [(st, Node.init)]).map
        (fun p => if p.1 = st then (p.1, p.2.update_action a v alpha) else p)) s2 = _
    rw [List.map_append]
    have hm : lookupState (k.nodes.map
        (fun p => if p.1 = st then (p.1, p.2.update_action a v alpha) else p)) s2
        = lookupState k.nodes s2 := by
      rw [lookupState_map_update, if_neg h]
    cases hl : lookupState k.nodes s2 with
    | some nd => rw [lookupState_append_of_some _ (hm.trans hl)]
    | none =>
        rw [lookupState_append_of_none _ (hm.trans hl)]
        have h2 : ¬ st = s2 := fun hh => h hh.symm
        simp [lookupState, hl, h2]
  · rw [if_neg hn]
    show lookupState (k.nodes.map
        (fun p => if p.1 = st then (p.1, p.2.update_action a v alpha) else p)) s2 = _
    rw [lookupState_map_update, if_neg h]

lemma Knowledge.add_WF {k : Knowledge} (hk : k.WF) (st : GameState) (a : Fin 4)
    (v alpha : ℚ) : (k.add st a v alpha).WF := by
  intro p hp
  simp only [Knowledge.add, Knowledge.updateAt, Knowledge.insertFresh] at hp
  rcases List.mem_map.mp hp with ⟨q, hq, rfl⟩
  have hqWF : q.2.WF := by
    by_cases h : lookupState k.nodes st = none
    · rw [if_pos h] at hq
      rcases List.mem_append.mp hq with hq1 | hq2
      · exact hk q hq1
      · obtain rfl : q = (st, Node.init) := by simpa using hq2
        exact Node.init_WF
    · rw [if_neg h] at hq
      exact hk q hq
  by_cases hqs : q.1 = st
  · simpa [hqs] using Node.update_WF hqWF a v alpha
  · simpa [hqs] using hqWF

lemma kbCount_add_self {k : Knowledge} (hk : k.WF) (st : GameState) (a : Fin 4)
    (v alpha : ℚ) :
    kbCount (k.add st a v alpha) st a = kbCount k st a + 1 := by
  unfold kbCount
  rw [get_node_add_self]
  cases h : k.get_node_for_state st with
  | none =>
      simp only [h, Option.getD_none]
      rw [Node.count_update_self Node.init_WF, init_count_getD]
  | some nd =>
      have hWF : nd.WF := hk _ (lookupState_mem h)
      simp only [h, Option.getD_some]
      rw [Node.count_update_self hWF]

lemma get_node_applyAdds_none (ops : List (GameState × Fin 4 × ℚ × ℚ))
    (k : Knowledge) (state : GameState)
    (hk : k.get_node_for_state state = none)
    (hstate : ∀ op ∈ ops, op.1 ≠ state) :
    (k.applyAdds ops).get_node_for_state state = none := by
  induction ops generalizing k with
  | nil => exact hk
  | cons o t ih =>
      have hstep : (k.add o.1 o.2.1 o.2.2.1 o.2.2.2).get_node_for_state state = none := by
        rw [get_node_add_ne k (Ne.symm (hstate o (by simp)))]
        exact hk
      exact ih _ hstep (fun op hop => hstate op (List.mem_cons_of_mem _ hop))

/-! ## Claim C2 -/

/-- C2: one `update_action` call on a node increments `action_count[a]` by
exactly 1 and leaves the other counts unchanged; the quality estimate changes
only by `quality[a] += (v - quality[a]) * alpha`; with `alpha = 1` a single
update sets `quality[a]` exactly to `v`; `action_count[a]` is non-decreasing
across any sequence of updates; and each `Knowledge.add` targeting a
(state, action) pair increments that pair's recorded count by exactly 1. -/
theorem C2_update_rule (n : Node) (hn : n.WF) (a : Fin 4) (v alpha : ℚ) :
    (n.update_action a v alpha).action_count.getD a 0 = n.action_count.getD a 0 + 1
    ∧ (∀ b : Fin 4, (b : ℕ) ≠ (a : ℕ) →
        (n.update_action a v alpha).action_count.getD b 0 = n.action_count.getD b 0)
    ∧ (n.update_action a v alpha).action_quality.getD a 0
        = n.action_quality.getD a 0 + (v - n.action_quality.getD a 0) * alpha
    ∧ (∀ b : Fin 4, (b : ℕ) ≠ (a : ℕ) →
        (n.update_action a v alpha).action_quality.getD b 0 = n.action_quality.getD b 0)
    ∧ (alpha = 1 → (n.update_action a v alpha).action_quality.getD a 0 = v)
    ∧ (∀ ops : List (Fin 4 × ℚ × ℚ),
        n.action_count.getD a 0 ≤ (n.applyUpdates ops).action_count.getD a 0)
    ∧ (∀ k : Knowledge, k.WF → ∀ st : GameState,
        kbCount (k.add st a v alpha) st a = kbCount k st a + 1) := by
  refine ⟨Node.count_update_self hn a v alpha,
    fun b hb => Node.count_update_ne n (Fin.ne_of_val_ne hb) v alpha,
    Node.quality_update_self hn a v alpha,
    fun b hb => Node.quality_update_ne n (Fin.ne_of_val_ne hb) v alpha,
    fun h1 => ?_,
    Node.count_le_applyUpdates n a,
    fun k hk st => kbCount_add_self hk st a v alpha⟩
  rw [Node.quality_update_self hn a v alpha, h1]
  ring

/-- Witness for C2 at a concrete node: one update with alpha 1 takes the
count from 0 to 1 and the quality exactly to the observed value 5. -/
theorem C2_update_rule_witness :
    (Node.init.update_action 2 5 1).action_count.getD ((2 : Fin 4) : ℕ) 0
      = Node.init.action_count.getD ((2 : Fin 4) : ℕ) 0 + 1
    ∧ (Node.init.update_action 2 5 1).action_quality.getD ((2 : Fin 4) : ℕ) 0 = 5 := by
  have h := C2_update_rule Node.init ⟨rfl, rfl⟩ 2 5 1
  exact ⟨h.1, h.2.2.2.2.1 rfl⟩

/-! ## Claim C4 -/

/-- C4: a state never targeted by any `add` since the empty knowledge base
has `get_estimate` 0.0 for every one of the four actions, and this default
equals a freshly constructed node's initial `action_quality[a]`, which is 0.0
for all four actions. -/
theorem C4_default_estimate (ops : List (GameState × Fin 4 × ℚ × ℚ))
    (state : GameState) (hstate : ∀ op ∈ ops, op.1 ≠ state) :
    (∀ a : Fin 4, (Knowledge.init.applyAdds ops).get_estimate state ((a : ℕ) : ℤ) = some 0)
    ∧ (∀ a : Fin 4, Node.init.get_estimate ((a : ℕ) : ℤ) = some 0) := by
  constructor
  · intro a
    have habs : (Knowledge.init.applyAdds ops).get_node_for_state state = none :=
      get_node_applyAdds_none ops Knowledge.init state rfl hstate
    unfold Knowledge.get_estimate
    rw [habs]
  · intro a
    fin_cases a <;> rfl

/-- Witness for C4: after one add on a different state, the untouched state
still reports estimate 0.0. -/
theorem C4_default_estimate_witness :
    (Knowledge.init.applyAdds [([1], 0, 3, 1)]).get_estimate [2] (((0 : Fin 4) : ℕ) : ℤ)
      = some 0 :=
  (C4_default_estimate [([1], 0, 3, 1)] [2] (by decide)).1 0

/-! ## Claim C10 -/

/-- A small concrete knowledge base knowing exactly the state `[0]`. -/
def exampleKB : Knowledge := Knowledge.init.add [0] 0 5 1

lemma exampleKB_WF : exampleKB.WF :=
  Knowledge.add_WF (fun p hp => absurd hp (by simp [Knowledge.init])) [0] 0 5 1

/-- C10 counterexample: on a knowledge base that knows state `[0]`, the
negative action index `-5` does not "silently return an entry from the end of
the 4-slot quality array" — it raises an uncaught IndexError (modelled as
`none`), refuting the claim's universal statement about negative indices. -/
theorem C10_counterexample :
    (exampleKB.get_node_for_state [0]).isSome = true
    ∧ exampleKB.get_estimate [0] (-5) = none := ⟨rfl, rfl⟩

/-- C10 (amended): the 0.0 fallback of `get_estimate` applies exactly to
unknown states (any action index, catching the absent-node AttributeError);
for a known state, an index 4 or greater raises an uncaught IndexError, a
negative index in [-4, -1] silently returns the entry `4 + i` of the 4-slot
quality array instead of 0.0, and a negative index -5 or less also raises an
uncaught IndexError. -/
theorem C10_get_estimate_indexing (k : Knowledge) (hk : k.WF) (state : GameState)
    (n : Node) (hn : k.get_node_for_state state = some n) :
    (∀ s2 : GameState, k.get_node_for_state s2 = none →
        ∀ i : ℤ, k.get_estimate s2 i = some 0)
    ∧ (∀ i : ℤ, 4 ≤ i → k.get_estimate state i = none)
    ∧ (∀ i : ℤ, -4 ≤ i → i < 0 →
        k.get_estimate state i = some (n.action_quality.getD (4 + i).toNat 0)
        ∧ (4 + i).toNat < 4)
    ∧ (∀ i : ℤ, i ≤ -5 → k.get_estimate state i = none) := by
  have hWF : n.WF := hk _ (lookupState_mem hn)
  have hlen : n.action_quality.length = 4 := hWF.1
  have hEq : ∀ i : ℤ, k.get_estimate state i = pyGet n.action_quality i := by
    intro i
    unfold Knowledge.get_estimate Node.get_estimate
    rw [hn]
  refine ⟨?_, ?_, ?_, ?_⟩
  · intro s2 h2 i
    unfold Knowledge.get_estimate
    rw [h2]
  · intro i hi
    rw [hEq]
    unfold pyGet
    rw [if_pos (by omega)]
    exact List.getElem?_eq_none (by rw [hlen]; omega)
  · intro i hi1 hi2
    have hj : n.action_quality.length - (-i).toNat = (4 + i).toNat := by
      rw [hlen]; omega
    have hjlt : (4 + i).toNat < n.action_quality.length := by rw [hlen]; omega
    refine ⟨?_, by rw [← hlen]; exact hjlt⟩
    rw [hEq]
    unfold pyGet
    rw [if_neg (by omega), if_pos (by rw [hlen]; omega), hj,
      List.getElem?_eq_getElem hjlt, List.getD_eq_getElem _ 0 hjlt]
  · intro i hi
    rw [hEq]
    unfold pyGet
    rw [if_neg (by omega), if_neg (by rw [hlen]; omega)]

/-- Witness for C10's amended statement at the concrete knowledge base: index
-1 wraps to slot 3 of the known node, index 7 is an uncaught IndexError. -/
theorem C10_get_estimate_indexing_witness :
    exampleKB.get_estimate [0] (-1)
      = some ((Node.init.update_action 0 5 1).action_quality.getD 3 0)
    ∧ exampleKB.get_estimate [0] 7 = none := by
  have h := C10_get_estimate_indexing exampleKB exampleKB_WF [0]
    (Node.init.update_action 0 5 1) rfl
  exact ⟨(h.2.2.1 (-1) (by decide) (by decide)).1, h.2.1 7 (by decide)⟩

/-! ## Claim C5 -/

lemma foldl_max_mem (x : ℚ) (xs : List ℚ) :
    xs.foldl max x = x ∨ xs.foldl max x ∈ xs := by
  induction xs generalizing x with
  | nil => exact Or.inl rfl
  | cons y ys ih =>
      rcases ih (max x y) with h | h
      · rcases max_choice x y with hm | hm
        · exact Or.inl (by rw [List.foldl_cons, h, hm])
        · exact Or.inr (by rw [List.foldl_cons, h, hm]; exact List.mem_cons_self y ys)
      · exact Or.inr (List.mem_cons_of_mem y h)

lemma le_foldl_max (x : ℚ) (xs : List ℚ) : x ≤ xs.foldl max x := by
  induction xs generalizing x with
  | nil => exact le_refl x
  | cons y ys ih => exact le_trans (le_max_left x y) (ih (max x y))

lemma mem_le_foldl_max (x : ℚ) {xs : List ℚ} {y : ℚ} (h : y ∈ xs) :
    y ≤ xs.foldl max x := by
  induction xs generalizing x with
  | nil => simp at h
  | cons a t ih =>
      rcases List.mem_cons.mp h with rfl | hy
      · exact le_trans (le_max_right x y) (le_foldl_max (max x y) t)
      · exact ih (max x a) hy

lemma listMax_mem {l : List ℚ} (h : l ≠ []) : listMax l ∈ l := by
  cases l with
  | nil => exact absurd rfl h
  | cons x xs =>
      rcases foldl_max_mem x xs with h1 | h1
      · rw [listMax, h1]; exact List.mem_cons_self x xs
      · rw [listMax]; exact List.mem_cons_of_mem x h1

lemma le_listMax {l : List ℚ} {y : ℚ} (h : y ∈ l) : y ≤ listMax l := by
  cases l with
  | nil => simp at h
  | cons x xs =>
      rcases List.mem_cons.mp h with rfl | hy
      · exact le_foldl_max y xs
      · exact mem_le_foldl_max x hy

lemma mem_joint_best {n : Node} (hn : n.WF) (i : ℕ) :
    i ∈ n.joint_best_actions
      ↔ i < 4 ∧ n.action_quality.getD i 0 = listMax n.action_quality := by
  rw [Node.joint_best_actions, hn.1]
  simp [List.mem_filter, List.mem_range]

lemma joint_best_nodup (n : Node) : n.joint_best_actions.Nodup :=
  (List.nodup_range _).filter _

lemma quality_ne_nil {n : Node} (hn : n.WF) : n.action_quality ≠ [] := by
  intro h
  have h1 := hn.1
  rw [h] at h1
  simp at h1

lemma joint_best_length_pos {n : Node} (hn : n.WF) :
    0 < n.joint_best_actions.length := by
  have hne : n.action_quality ≠ [] := quality_ne_nil hn
  obtain ⟨j, hj, hjv⟩ := List.getElem_of_mem (listMax_mem hne)
  have hmem : j ∈ n.joint_best_actions := by
    rw [mem_joint_best hn]
    exact ⟨by rw [← hn.1]; exact hj, by rw [List.getD_eq_getElem _ 0 hj, hjv]⟩
  exact List.length_pos.mpr (List.ne_nil_of_mem hmem)

lemma best_action_mem {n : Node} (hn : n.WF) (t : ℕ) :
    n.best_action t ∈ n.joint_best_actions := by
  rw [Node.best_action]
  have hlt : t % n.joint_best_actions.length < n.joint_best_actions.length :=
    Nat.mod_lt _ (joint_best_length_pos hn)
  rw [List.getD_eq_getElem _ 0 hlt]
  exact List.getElem_mem _

/-- C5: `best_action` always returns an index in 0..3 whose quality is the
maximal quality (hence at least every action's quality);
`joint_best_actions` is exactly the duplicate-free increasing list of maximal
indices; the draw `t` ranges bijectively over the tie set (for `t` below the
tie count, `best_action` returns the t-th tied action), so the uniform draw
returns each maximal entry with equal probability; and with all four
qualities equal every action 0..3 is returned, each for exactly one draw. -/
theorem C5_best_action_ties (n : Node) (hn : n.WF) :
    (∀ t : ℕ, n.best_action t < 4
      ∧ n.action_quality.getD (n.best_action t) 0 = listMax n.action_quality
      ∧ ∀ b : Fin 4, n.action_quality.getD (b : ℕ) 0
          ≤ n.action_quality.getD (n.best_action t) 0)
    ∧ (∀ i : ℕ, i ∈ n.joint_best_actions
        ↔ i < 4 ∧ n.action_quality.getD i 0 = listMax n.action_quality)
    ∧ n.joint_best_actions.Nodup
    ∧ 0 < n.joint_best_actions.length
    ∧ (∀ t : ℕ, t < n.joint_best_actions.length →
        n.best_action t = n.joint_best_actions.getD t 0)
    ∧ ((∀ i j : Fin 4, n.action_quality.getD (i : ℕ) 0
          = n.action_quality.getD (j : ℕ) 0) →
        ∀ t : ℕ, t < 4 → n.best_action t = t) := by
  have hq : ∀ t : ℕ, n.best_action t < 4
      ∧ n.action_quality.getD (n.best_action t) 0 = listMax n.action_quality := by
    intro t
    have := (mem_joint_best hn _).mp (best_action_mem hn t)
    exact ⟨this.1, this.2⟩
  refine ⟨fun t => ⟨(hq t).1, (hq t).2, fun b => ?_⟩,
    fun i => mem_joint_best hn i, joint_best_nodup n, joint_best_length_pos hn,
    fun t ht => ?_, fun hall t ht => ?_⟩
  · rw [(hq t).2]
    have hb : (b : ℕ) < n.action_quality.length := by rw [hn.1]; exact b.isLt
    rw [List.getD_eq_getElem _ 0 hb]
    exact le_listMax (List.getElem_mem _)
  · rw [Node.best_action, Nat.mod_eq_of_lt ht]
  · have hmax0 : listMax n.action_quality = n.action_quality.getD 0 0 := by
      obtain ⟨j, hj, hjv⟩ := List.getElem_of_mem (listMax_mem (quality_ne_nil hn))
      have hj4 : j < 4 := by rw [← hn.1]; exact hj
      have h5 : n.action_quality.getD j 0 = n.action_quality.getD 0 0 := by
        simpa using hall ⟨j, hj4⟩ ⟨0, by omega⟩
      rw [← hjv, ← List.getD_eq_getElem _ 0 hj]
      exact h5
    have hfilter : n.joint_best_actions = List.range 4 := by
      rw [Node.joint_best_actions, hn.1]
      apply List.filter_eq_self.mpr
      intro i hi
      have hi4 : i < 4 := List.mem_range.mp hi
      have := hall ⟨i, hi4⟩ ⟨0, by omega⟩
      rw [hmax0]
      simpa using this
    rw [Node.best_action, hfilter]
    have h4 : (List.range 4).length = 4 := List.length_range 4
    rw [h4, Nat.mod_eq_of_lt ht, List.getD_eq_getElem _ 0 (by rw [h4]; exact ht),
      List.getElem_range]

/-- Witness for C5 at the all-zero fresh node: with all four qualities tied,
draw 2 returns action 2, which attains the maximal quality. -/
theorem C5_best_action_ties_witness :
    Node.init.best_action 2 = 2
    ∧ Node.init.action_quality.getD (Node.init.best_action 2) 0
        = listMax Node.init.action_quality := by
  have h := C5_best_action_ties Node.init ⟨rfl, rfl⟩
  exact ⟨h.2.2.2.2.2 (fun i j => by fin_cases i <;> fin_cases j <;> rfl) 2 (by decide),
    (h.1 2).2.1⟩

/-! ## Claim C3 -/

/-- Which branch of the epsilon-greedy selection fired. -/
inductive PolicySource where
  | best
  | explore
deriving DecidableEq

/-- The per-decision action selection of the main loop: if the drawn uniform
value `r` exceeds `epsilon` and the current state has a known node, take the
node's `best_action` (with tie draw `t`); otherwise take the action sampled
uniformly from the environment's action space. -/
def select_action (k : Knowledge) (obs : GameState) (epsilon r : ℚ)
    (sampled : ℕ) (t : ℕ) : ℕ × PolicySource :=
  if r > epsilon then
    match k.get_node_for_state obs with
    | some node => (node.best_action t, PolicySource.best)
    | none => (sampled, PolicySource.explore)
  else (sampled, PolicySource.explore)

/-- C3: the policy exploits (`best_action`) iff `r > epsilon` AND the state
has a known node; in every other case (`r ≤ epsilon`, or the state unknown)
it takes the uniformly sampled random action — so a state with no node is
never exploited, regardless of `epsilon`. -/
theorem C3_epsilon_greedy (k : Knowledge) (obs : GameState) (epsilon r : ℚ)
    (sampled t : ℕ) :
    ((select_action k obs epsilon r sampled t).2 = PolicySource.best
      ↔ (r > epsilon ∧ (k.get_node_for_state obs).isSome = true))
    ∧ (∀ node : Node, k.get_node_for_state obs = some node → r > epsilon →
        select_action k obs epsilon r sampled t
          = (node.best_action t, PolicySource.best))
    ∧ (r ≤ epsilon ∨ k.get_node_for_state obs = none →
        select_action k obs epsilon r sampled t = (sampled, PolicySource.explore))
    ∧ (k.get_node_for_state obs = none →
        (select_action k obs epsilon r sampled t).1 = sampled
        ∧ (select_action k obs epsilon r sampled t).2 = PolicySource.explore) := by
  unfold select_action
  by_cases hre : r > epsilon
  · have h2 : ¬ r ≤ epsilon := not_le.mpr hre
    cases hnode : k.get_node_for_state obs with
    | some node => simp [hre, hnode, h2]
    | none => simp [hre, hnode, h2]
  · have h2 : r ≤ epsilon := not_lt.mp hre
    simp [hre, h2]

/-- Witness for C3: on the empty knowledge base (state unknown) the sampled
action 3 is taken even with `r = 1 > epsilon`. -/
theorem C3_epsilon_greedy_witness :
    (select_action Knowledge.init [0] (1/10) 1 3 0).1 = 3 :=
  ((C3_epsilon_greedy Knowledge.init [0] (1/10) 1 3 0).2.2.2 rfl).1

/-! ## Claim C6 -/

/-- The descending-visits comparison used by
`sorted(self.nodes.items(), key=lambda x: x[1].visited(), reverse=True)`. -/
def visitDesc (p q : GameState × Node) : Prop := q.2.visited ≤ p.2.visited

instance : DecidableRel visitDesc := fun _ _ => Nat.decLe _ _

instance : IsTotal (GameState × Node) visitDesc :=
  ⟨fun p q => le_total q.2.visited p.2.visited⟩

instance : IsTrans (GameState × Node) visitDesc :=
  ⟨fun _ _ _ h1 h2 => le_trans h2 h1⟩

/-- The table's items sorted by descending visit count (a stable sort, as
Python's `sorted`). -/
def Knowledge.sortedNodes (k : Knowledge) : List (GameState × Node) :=
  List.insertionSort visitDesc k.nodes

/-- The body of `Knowledge.dump`: emit entries of the sorted list, counting
each after emitting it, and stop once `limit` is nonzero and the count
exceeds it (the Python loop `count += 1; if limit and count > limit: break`
runs after printing, so the entry that trips the bound is already out). -/
def dumpFrom (limit : ℕ) : ℕ → List (GameState × Node) → List (GameState × Node)
  | _, [] => []
  | count, p :: ps =>
      if limit ≠ 0 ∧ limit < count + 1 then [p]
      else p :: dumpFrom limit (count + 1) ps

/-- `Knowledge.dump`: the listing emitted for the given limit. -/
def Knowledge.dump (k : Knowledge) (limit : ℕ) : List (GameState × Node) :=
  dumpFrom limit 0 k.sortedNodes

/-- A knowledge base knowing two states, each visited once. -/
def exampleKB2 : Knowledge := (Knowledge.init.add [0] 0 1 1).add [1] 1 1 1

/-- C6 counterexample: with two known states, `dump 1` emits 2 entries, not
at most 1 — the loop's post-increment bound check lets `limit + 1` entries
through, refuting "no more than L entries". -/
theorem C6_counterexample :
    exampleKB2.size = 2 ∧ (exampleKB2.dump 1).length = 2 := ⟨rfl, rfl⟩

lemma dumpFrom_take {L : ℕ} (hL : 1 ≤ L) :
    ∀ (l : List (GameState × Node)) (c : ℕ), c ≤ L →
      dumpFrom L c l = l.take (L + 1 - c) := by
  intro l
  induction l with
  | nil => intro c _; simp [dumpFrom]
  | cons p ps ih =>
      intro c hc
      by_cases hstop : L < c + 1
      · have hcL : c = L := by omega
        have htake : L + 1 - c = 1 := by omega
        rw [dumpFrom, if_pos ⟨by omega, hstop⟩, htake]
        rfl
      · have harith : L + 1 - c = (L + 1 - (c + 1)) + 1 := by omega
        rw [dumpFrom, if_neg (by omega), ih (c + 1) (by omega), harith,
          List.take_succ_cons]

/-- C6 (amended): for every positive limit `L`, `dump L` lists the
`min (L+1, size)` most-visited states — the prefix of length `L+1` (not `L`)
of the table's items stably sorted descending by visit count. -/
theorem C6_dump (k : Knowledge) (L : ℕ) (hL : 1 ≤ L) :
    k.dump L = k.sortedNodes.take (L + 1)
    ∧ k.sortedNodes.Perm k.nodes
    ∧ List.Sorted visitDesc k.sortedNodes
    ∧ (k.dump L).length = min (L + 1) k.size := by
  have h1 : k.dump L = k.sortedNodes.take (L + 1) := by
    rw [Knowledge.dump, dumpFrom_take hL _ 0 (by omega), Nat.sub_zero]
  refine ⟨h1, List.perm_insertionSort _ _, List.sorted_insertionSort _ _, ?_⟩
  rw [h1, List.length_take]
  have h2 : k.sortedNodes.length = k.size := (List.perm_insertionSort _ _).length_eq
  rw [h2]

/-- Witness for C6's amended statement: at the two-state table with limit 1,
the dump length is `min 2 2 = 2`. -/
theorem C6_dump_witness :
    (exampleKB2.dump 1).length = min (1 + 1) exampleKB2.size :=
  (C6_dump exampleKB2 1 (by decide)).2.2.2

/-! ## Claims C7 and C9: the episode step loop -/

/-- One environment response to `env.step(action)`: next observation,
immediate reward, done flag. -/
structure StepResult where
  obs : GameState
  reward : ℚ
  done : Bool

/-- One trajectory entry `(last_observation, action, reward)`. -/
abbrev HistEntry := GameState × Fin 4 × ℚ

/-- The per-episode loop `for t in range(1000)`, from step index `t` with
`fuel` iterations left: record `(obs, action, reward)`, stop on `done`
(returning the flag), else continue from the next observation. The
environment's responses and the policy's chosen actions are abstracted as
input sequences `stepf` and `actf`. -/
def runFrom (stepf : ℕ → StepResult) (actf : ℕ → Fin 4) :
    ℕ → ℕ → GameState → List HistEntry × Bool
  | _, 0, _ => ([], false)
  | t, fuel + 1, obs =>
      let res := stepf t
      if res.done then ([(obs, actf t, res.reward)], true)
      else
        let rest := runFrom stepf actf (t + 1) fuel res.obs
        ((obs, actf t, res.reward) :: rest.1, rest.2)

/-- One full episode: the loop body above with the hard step cap 1000. -/
def runEpisode (stepf : ℕ → StepResult) (actf : ℕ → Fin 4) (obs0 : GameState) :
    List HistEntry × Bool :=
  runFrom stepf actf 0 1000 obs0

/-- `for idx, h in enumerate(history): knowledge.add(h[0], h[1],
td_lambda_estimate[idx], alpha)`: fold the finished trajectory into the
knowledge base, done or truncated alike. -/
def foldHistory (k : Knowledge) (history : List HistEntry) (targets : List ℚ)
    (alpha : ℚ) : Knowledge :=
  (history.zip targets).foldl (fun kb p => kb.add p.1.1 p.1.2.1 p.2 alpha) k

/-- `if done: total_moves += (t + 1)`: the number of moves an episode
contributes to the total counter, counted only in the done branch. -/
def movesFrom (stepf : ℕ → StepResult) : ℕ → ℕ → ℕ
  | _, 0 => 0
  | t, fuel + 1 => if (stepf t).done then t + 1 else movesFrom stepf (t + 1) fuel

/-- This episode's contribution to `total_moves`. -/
def episodeMoves (stepf : ℕ → StepResult) : ℕ := movesFrom stepf 0 1000

/-- The final `total_moves` over a sequence of episodes. -/
def totalMoves (runs : List (ℕ → StepResult)) : ℕ :=
  (runs.map episodeMoves).sum

lemma runFrom_length_le (stepf : ℕ → StepResult) (actf : ℕ → Fin 4) :
    ∀ (fuel t : ℕ) (obs : GameState),
      (runFrom stepf actf t fuel obs).1.length ≤ fuel := by
  intro fuel
  induction fuel with
  | zero => intro t obs; simp [runFrom]
  | succ fuel ih =>
      intro t obs
      rw [runFrom]
      by_cases hd : (stepf t).done
      · simp [hd]
      · simp only [hd, if_neg, Bool.false_eq_true, if_false, List.length_cons]
        exact Nat.succ_le_succ (ih (t + 1) _)

lemma runFrom_no_done (stepf : ℕ → StepResult) (actf : ℕ → Fin 4) :
    ∀ (fuel t : ℕ) (obs : GameState),
      (∀ s, t ≤ s → s < t + fuel → (stepf s).done = false) →
      (runFrom stepf actf t fuel obs).1.length = fuel
      ∧ (runFrom stepf actf t fuel obs).2 = false := by
  intro fuel
  induction fuel with
  | zero => intro t obs _; simp [runFrom]
  | succ fuel ih =>
      intro t obs hnd
      have hd : (stepf t).done = false := hnd t (le_refl t) (by omega)
      rw [runFrom]
      simp only [hd, Bool.false_eq_true, if_false, List.length_cons]
      have := ih (t + 1) ((stepf t).obs) (fun s hs1 hs2 => hnd s (by omega) (by omega))
      exact ⟨by rw [this.1], this.2⟩

lemma runFrom_done_exists (stepf : ℕ → StepResult) (actf : ℕ → Fin 4) :
    ∀ (fuel t : ℕ) (obs : GameState),
      (runFrom stepf actf t fuel obs).2 = true →
      ∃ s, t ≤ s ∧ s < t + fuel ∧ (stepf s).done = true := by
  intro fuel
  induction fuel with
  | zero => intro t obs h; simp [runFrom] at h
  | succ fuel ih =>
      intro t obs h
      by_cases hd : (stepf t).done
      · exact ⟨t, le_refl t, by omega, hd⟩
      · rw [runFrom] at h
        simp only [hd, Bool.false_eq_true, if_false] at h
        obtain ⟨s, hs1, hs2, hs3⟩ := ih (t + 1) ((stepf t).obs) h
        exact ⟨s, by omega, by omega, hs3⟩

lemma movesFrom_spec (stepf : ℕ → StepResult) (actf : ℕ → Fin 4) :
    ∀ (fuel t : ℕ) (obs : GameState),
      ((runFrom stepf actf t fuel obs).2 = true →
        movesFrom stepf t fuel = t + (runFrom stepf actf t fuel obs).1.length)
      ∧ ((runFrom stepf actf t fuel obs).2 = false →
        movesFrom stepf t fuel = 0) := by
  intro fuel
  induction fuel with
  | zero => intro t obs; constructor <;> intro h <;> simp [runFrom, movesFrom] at h ⊢
  | succ fuel ih =>
      intro t obs
      by_cases hd : (stepf t).done
      · rw [runFrom, movesFrom]
        simp [hd]
      · rw [runFrom, movesFrom]
        simp only [hd, Bool.false_eq_true, if_false, List.length_cons]
        have := ih (t + 1) ((stepf t).obs)
        constructor
        · intro h
          rw [this.1 h]
          omega
        · intro h
          exact this.2 h

lemma get_node_add_isSome (k : Knowledge) (st s2 : GameState) (a : Fin 4)
    (v alpha : ℚ) (h : (k.get_node_for_state s2).isSome = true) :
    ((k.add st a v alpha).get_node_for_state s2).isSome = true := by
  by_cases hs : s2 = st
  · subst hs
    rw [get_node_add_self]
    rfl
  · rw [get_node_add_ne k hs]
    exact h

lemma get_node_add_self_isSome (k : Knowledge) (st : GameState) (a : Fin 4)
    (v alpha : ℚ) :
    ((k.add st a v alpha).get_node_for_state st).isSome = true := by
  rw [get_node_add_self]
  rfl

lemma foldHistory_preserves {alpha : ℚ} (hist : List HistEntry) (tgts : List ℚ) :
    ∀ (k : Knowledge) (s2 : GameState),
      (k.get_node_for_state s2).isSome = true →
      ((foldHistory k hist tgts alpha).get_node_for_state s2).isSome = true := by
  unfold foldHistory
  generalize hist.zip tgts = l
  induction l with
  | nil => intro k s2 h; exact h
  | cons p ps ih =>
      intro k s2 h
      exact ih _ _ (get_node_add_isSome k p.1.1 s2 p.1.2.1 p.2 alpha h)

lemma foldHistory_mem_isSome (alpha : ℚ) :
    ∀ (hist : List HistEntry) (tgts : List ℚ),
      hist.length ≤ tgts.length →
      ∀ (k : Knowledge), ∀ e ∈ hist,
        ((foldHistory k hist tgts alpha).get_node_for_state e.1).isSome = true := by
  intro hist
  induction hist with
  | nil => intro tgts _ k e he; simp at he
  | cons hh hs ih =>
      intro tgts hlen k e he
      cases tgts with
      | nil => simp at hlen
      | cons tg tgs =>
          have hfold : foldHistory k (hh :: hs) (tg :: tgs) alpha
              = foldHistory (k.add hh.1 hh.2.1 tg alpha) hs tgs alpha := rfl
          rw [hfold]
          rcases List.mem_cons.mp he with rfl | hmem
          · exact foldHistory_preserves hs tgs _ _
              (get_node_add_self_isSome k e.1 e.2.1 tg alpha)
          · exact ih tgs (by simpa using hlen) _ e hmem

/-- C7: every episode records at most 1000 steps; if the environment never
signals done in the first 1000 steps the loop runs exactly 1000 steps and
ends truncated (done flag false); a true done flag can only come from a done
signal within the cap; and the recorded trajectory — truncated or not — is
folded into the knowledge base step by step: after the fold, every
trajectory state is present in the table. -/
theorem C7_episode_cap_and_fold (stepf : ℕ → StepResult) (actf : ℕ → Fin 4)
    (obs0 : GameState) :
    (runEpisode stepf actf obs0).1.length ≤ 1000
    ∧ ((∀ s, s < 1000 → (stepf s).done = false) →
        (runEpisode stepf actf obs0).1.length = 1000
        ∧ (runEpisode stepf actf obs0).2 = false)
    ∧ ((runEpisode stepf actf obs0).2 = true →
        ∃ s, s < 1000 ∧ (stepf s).done = true)
    ∧ (∀ (k : Knowledge) (targets : List ℚ) (alpha : ℚ),
        (runEpisode stepf actf obs0).1.length ≤ targets.length →
        ∀ e ∈ (runEpisode stepf actf obs0).1,
          ((foldHistory k (runEpisode stepf actf obs0).1 targets alpha).get_node_for_state
            e.1).isSome = true) := by
  refine ⟨runFrom_length_le stepf actf 1000 0 obs0, ?_, ?_, ?_⟩
  · intro hnd
    exact runFrom_no_done stepf actf 1000 0 obs0 (fun s hs1 hs2 => hnd s (by omega))
  · intro h
    obtain ⟨s, hs1, hs2, hs3⟩ := runFrom_done_exists stepf actf 1000 0 obs0 h
    exact ⟨s, by omega, hs3⟩
  · intro k targets alpha hlen e he
    exact foldHistory_mem_isSome alpha _ targets hlen k e he

/-- Witness for C7 on an environment that terminates at once: the done flag
certifies a done signal within the cap. -/
theorem C7_episode_cap_and_fold_witness :
    ∃ s, s < 1000 ∧ ((fun _ => StepResult.mk [] 1 true) s).done = true :=
  (C7_episode_cap_and_fold (fun _ => StepResult.mk [] 1 true) (fun _ => 0) []).2.2.1 rfl

/-- C9: `total_moves` counts an episode's steps only when the episode ends
with the environment's done flag: a done episode contributes its step count,
a 1000-step truncated episode contributes 0 moves even though its trajectory
is still folded into the knowledge base; and the counter is the sum of the
per-episode contributions. -/
theorem C9_total_moves (stepf : ℕ → StepResult) (actf : ℕ → Fin 4)
    (obs0 : GameState) :
    ((runEpisode stepf actf obs0).2 = true →
      episodeMoves stepf = (runEpisode stepf actf obs0).1.length)
    ∧ ((runEpisode stepf actf obs0).2 = false → episodeMoves stepf = 0)
    ∧ ((∀ s, s < 1000 → (stepf s).done = false) →
        episodeMoves stepf = 0
        ∧ (runEpisode stepf actf obs0).1.length = 1000
        ∧ ∀ (k : Knowledge) (targets : List ℚ) (alpha : ℚ),
            (runEpisode stepf actf obs0).1.length ≤ targets.length →
            ∀ e ∈ (runEpisode stepf actf obs0).1,
              ((foldHistory k (runEpisode stepf actf obs0).1 targets
                alpha).get_node_for_state e.1).isSome = true)
    ∧ (∀ runs : List (ℕ → StepResult),
        totalMoves (runs ++ [stepf]) = totalMoves runs + episodeMoves stepf) := by
  have hm := movesFrom_spec stepf actf 1000 0 obs0
  refine ⟨fun h => by rw [episodeMoves, hm.1 h]; simp [runEpisode], fun h => hm.2 h, ?_, ?_⟩
  · intro hnd
    have hrun := runFrom_no_done stepf actf 1000 0 obs0
      (fun s hs1 hs2 => hnd s (by omega))
    exact ⟨hm.2 hrun.2, hrun.1,
      fun k targets alpha hlen e he => foldHistory_mem_isSome alpha _ targets hlen k e he⟩
  · intro runs
    rw [totalMoves, totalMoves, List.map_append, List.sum_append]
    rfl

/-- Witness for C9 on an environment that never signals done: the truncated
episode contributes 0 moves while its 1000 recorded steps still exist. -/
theorem C9_total_moves_witness :
    episodeMoves (fun _ => StepResult.mk [] 0 false) = 0
    ∧ (runEpisode (fun _ => StepResult.mk [] 0 false) (fun _ => 0) []).1.length
        = 1000 := by
  have h := (C9_total_moves (fun _ => StepResult.mk [] 0 false) (fun _ => 0) []).2.2.1
    (fun s _ => rfl)
  exact ⟨h.1, h.2.1⟩

/-! ## Claim C8: persistence round-trip -/

/-- Modelled from the spec: the persistence layer (`pickle.dump` to the
output path / `pickle.load` from the input path) is library code external to
this repository; per the spec the knowledge base is "persisted as an opaque
serialized blob" of its entire object graph, so the blob is modelled as the
exact field contents of every node in mapping order. -/
def serializeKnowledge (k : Knowledge) : List (GameState × List ℚ × List ℕ) :=
  k.nodes.map fun p => (p.1, p.2.action_quality, p.2.action_count)

/-- Modelled from the spec: deserialization rebuilds the whole mapping from
the blob ("loading replaces the entire mapping"). -/
def deserializeKnowledge (blob : List (GameState × List ℚ × List ℕ)) : Knowledge :=
  ⟨blob.map fun b => (b.1, { action_quality := b.2.1, action_count := b.2.2 })⟩

/-- C8: serializing a knowledge base and deserializing the blob is an exact
round-trip: the reloaded table is identical, so `size`, `get_estimate` on
every (state, action) pair, and `best_action` (for every tie draw) behave
exactly as before the save. -/
theorem C8_roundtrip (k : Knowledge) :
    deserializeKnowledge (serializeKnowledge k) = k
    ∧ (deserializeKnowledge (serializeKnowledge k)).size = k.size
    ∧ (∀ (st : GameState) (a : ℤ),
        (deserializeKnowledge (serializeKnowledge k)).get_estimate st a
          = k.get_estimate st a)
    ∧ (∀ (st : GameState) (n n2 : Node) (t : ℕ),
        k.get_node_for_state st = some n
        → (deserializeKnowledge (serializeKnowledge k)).get_node_for_state st = some n2
        → n2.best_action t = n.best_action t) := by
  have hid : deserializeKnowledge (serializeKnowledge k) = k := by
    rw [serializeKnowledge, deserializeKnowledge, List.map_map]
    cases k with
    | mk l =>
        congr 1
        exact List.map_id l
  refine ⟨hid, by rw [hid], fun st a => by rw [hid], fun st n n2 t h1 h2 => ?_⟩
  rw [hid, h1] at h2
  obtain rfl : n = n2 := by injection h2
  rfl

/-- Witness for C8: the round-trip of the one-state table keeps its size and
its estimate for the stored pair. -/
theorem C8_roundtrip_witness :
    (deserializeKnowledge (serializeKnowledge exampleKB)).size = exampleKB.size
    ∧ (deserializeKnowledge (serializeKnowledge exampleKB)).get_estimate [0] 0
        = exampleKB.get_estimate [0] 0
    ∧ (Node.init.update_action 0 5 1).best_action 0
        = (Node.init.update_action 0 5 1).best_action 0 := by
  have h := C8_roundtrip exampleKB
  exact ⟨h.2.1, h.2.2.1 [0] 0,
    h.2.2.2 [0] (Node.init.update_action 0 5 1) (Node.init.update_action 0 5 1) 0 rfl rfl⟩

/-! ## Claim C1: the TD(λ) target computation -/

lemma foldl_append_map (f : HistEntry → ℚ) :
    ∀ (l : List HistEntry) (acc : List ℚ),
      l.foldl (fun est h => est ++ [f h]) acc = acc ++ l.map f := by
  intro l
  induction l with
  | nil => intro acc; simp
  | cons h t ih => intro acc; rw [List.foldl_cons, ih, List.map_cons]; simp

lemma length_foldl_set (g : ℕ → ℚ) :
    ∀ (xs : List ℕ) (est : List ℚ),
      (xs.foldl (fun e i => e.set i (e.getD i 0 + g i)) est).length = est.length := by
  intro xs
  induction xs with
  | nil => intro est; rfl
  | cons i t ih => intro est; rw [List.foldl_cons, ih, List.length_set]

lemma getD_foldl_set (g : ℕ → ℚ) :
    ∀ (xs : List ℕ), xs.Nodup →
      ∀ (est : List ℚ) (j : ℕ),
        (xs.foldl (fun e i => e.set i (e.getD i 0 + g i)) est).getD j 0
          = est.getD j 0 + if j ∈ xs ∧ j < est.length then g j else 0 := by
  intro xs
  induction xs with
  | nil => intro _ est j; simp
  | cons i t ih =>
      intro hnd est j
      rw [List.foldl_cons, ih (List.nodup_cons.mp hnd).2]
      rw [List.length_set]
      by_cases hji : j = i
      · subst hji
        have hnotmem : j ∉ t := (List.nodup_cons.mp hnd).1
        by_cases hlen : j < est.length
        · rw [getD_set_eq _ hlen]
          simp [hnotmem, hlen]
        · rw [List.set_eq_of_length_le (by omega)]
          simp [hlen]
      · rw [getD_set_ne _ (fun hh => hji hh.symm)]
        by_cases hmem : j ∈ t <;> simp [hmem, hji]

lemma getD_outer_fold (n : ℕ) (g : ℕ → ℕ → ℚ) :
    ∀ (ks : List ℕ) (est : List ℚ), est.length = n →
      ∀ j : ℕ,
        ((ks.foldl (fun e k =>
            (List.range (n - k)).foldl
              (fun e2 i => e2.set i (e2.getD i 0 + g k i)) e) est).getD j 0
          = est.getD j 0
            + ((ks.filter fun k => j + k < n).map fun k => g k j).sum)
        ∧ (ks.foldl (fun e k =>
            (List.range (n - k)).foldl
              (fun e2 i => e2.set i (e2.getD i 0 + g k i)) e) est).length = n := by
  intro ks
  induction ks with
  | nil => intro est hlen j; simp [hlen]
  | cons k kt ih =>
      intro est hlen j
      rw [List.foldl_cons]
      have hpass_len : ((List.range (n - k)).foldl
          (fun e2 i => e2.set i (e2.getD i 0 + g k i)) est).length = n := by
        rw [length_foldl_set, hlen]
      have hstep := ih _ hpass_len j
      refine ⟨?_, hstep.2⟩
      rw [hstep.1]
      rw [getD_foldl_set (g k) _ (List.nodup_range _) est j]
      by_cases hc : j + k < n
      · have hcond : j ∈ List.range (n - k) ∧ j < est.length :=
          ⟨List.mem_range.mpr (by omega), by rw [hlen]; omega⟩
        rw [if_pos hcond, List.filter_cons_of_pos (by simpa using hc),
          List.map_cons, List.sum_cons]
        ring
      · have hcond : ¬ (j ∈ List.range (n - k) ∧ j < est.length) := by
          rw [List.mem_range]
          omega
        rw [if_neg hcond, List.filter_cons_of_neg (by simpa using hc)]
        ring

lemma filter_range_sum (n j : ℕ) (f : ℕ → ℚ) :
    ∀ c : ℕ,
      (((List.range' 1 c).filter fun k => j + k < n).map f).sum
        = ∑ k ∈ Finset.Ico 1 (c + 1), if j + k < n then f k else 0 := by
  intro c
  induction c with
  | zero => simp
  | succ c ih =>
      rw [List.range'_concat]
      have h1 : 1 + 1 * c = c + 1 := by omega
      rw [h1, List.filter_append, List.map_append, List.sum_append, ih,
        Finset.sum_Ico_succ_top (Nat.le_add_left 1 c)]
      by_cases hc : j + (c + 1) < n
      · rw [List.filter_cons_of_pos (by simpa using hc), if_pos hc]
        simp
      · rw [List.filter_cons_of_neg (by simpa using hc), if_neg hc]
        simp

lemma ico_to_range_sum (m : ℕ) (f : ℕ → ℚ) :
    f 0 + ∑ k ∈ Finset.Ico 1 (m + 1), f k = ∑ k ∈ Finset.range (m + 1), f k := by
  rw [Finset.sum_range_succ']
  rw [Finset.sum_Ico_eq_sum_range]
  have h1 : m + 1 - 1 = m := by omega
  rw [h1]
  have h2 : ∀ k ∈ Finset.range m, f (1 + k) = f (k + 1) := by
    intro k _
    rw [Nat.add_comm]
  rw [Finset.sum_congr rfl h2]
  ring

lemma ite_range_sum (A n j : ℕ) (f : ℕ → ℚ) :
    (∑ k ∈ Finset.range A, if j + k < n then f k else 0)
      = ∑ k ∈ Finset.range (min A (n - j)), f k := by
  rw [← Finset.sum_filter]
  have hset : (Finset.range A).filter (fun k => j + k < n)
      = Finset.range (min A (n - j)) := by
    apply Finset.ext
    intro k
    simp only [Finset.mem_filter, Finset.mem_range]
    omega
  rw [hset]

/-- The TD(λ) target array computed by the main loop (src/play.py 158–171):
the base pass appends `h[2] * (1 - λ) * λ^0` for each history entry, then
`for td_factor in range(1, min(10, len(history)))` the lookahead pass adds
`history[i + td_factor][2] * (1 - λ) * λ^td_factor` to entry `i` for
`i in range(len(history) - td_factor)`. -/
def td_lambda_estimate (history : List HistEntry) (llambda : ℚ) : List ℚ :=
  (List.range' 1 (min 10 history.length - 1)).foldl
    (fun est td_factor =>
      (List.range (history.length - td_factor)).foldl
        (fun e i =>
          e.set i (e.getD i 0
            + (history.getD (i + td_factor) ([], 0, 0)).2.2
              * ((1 - llambda) * llambda ^ td_factor)))
        est)
    (history.foldl
      (fun est h => est ++ [h.2.2 * ((1 - llambda) * llambda ^ 0)]) [])

/-- The spec's pseudocode followed literally over a reward array:
`for i in 0..n-1: target[i] = r[i] * (1-λ)`, then for each lookahead `k` from
1 up to `min(10, n-1)` inclusive, `target[i] += r[i+k] * (1-λ) * λ^k` for
every `i` in `0..n-1-k`. Kept for comparison against the computation actually
performed by the code. -/
def specTarget (rewards : List ℚ) (llambda : ℚ) : List ℚ :=
  (List.range' 1 (min 10 (rewards.length - 1))).foldl
    (fun target k =>
      (List.range (rewards.length - k)).foldl
        (fun tg i =>
          tg.set i (tg.getD i 0
            + rewards.getD (i + k) 0 * ((1 - llambda) * llambda ^ k)))
        target)
    (rewards.map fun r => r * (1 - llambda))

lemma getD_map_snd (history : List HistEntry) (m : ℕ) :
    (history.map fun h => h.2.2).getD m 0 = (history.getD m ([], 0, 0)).2.2 := by
  by_cases hm : m < history.length
  · rw [List.getD_eq_getElem _ _ (by rw [List.length_map]; exact hm),
      List.getElem_map, List.getD_eq_getElem _ _ hm]
  · rw [List.getD_eq_getElem?_getD, List.getElem?_eq_none (by rw [List.length_map]; omega),
      List.getD_eq_getElem?_getD, List.getElem?_eq_none (by omega)]
    rfl

/-- An 11-step trajectory whose only nonzero reward is at the last step. -/
def histC1 : List HistEntry :=
  [([], 0, 0), ([], 0, 0), ([], 0, 0), ([], 0, 0), ([], 0, 0), ([], 0, 0),
   ([], 0, 0), ([], 0, 0), ([], 0, 0), ([], 0, 0), ([], 0, 1)]

/-- C1 counterexample: on an 11-step trajectory with reward only at step 10
and λ = 1/2, the code's lookahead runs only to k = 9 (`range(1, min(10, n))`)
while the spec's algorithm runs k up to min(10, n-1) = 10, so the computed
target array differs from the spec's at entry 0: the code leaves it 0, the
spec's algorithm gives 1/2048. -/
theorem C1_counterexample :
    td_lambda_estimate histC1 (1/2)
      ≠ specTarget (histC1.map fun h => h.2.2) (1/2) := by
  have h1 : (td_lambda_estimate histC1 (1/2)).getD 0 0 = 0 := by
    norm_num [td_lambda_estimate, histC1, List.range', List.range_succ]
  have h2 : (specTarget (histC1.map fun h => h.2.2) (1/2)).getD 0 0 = 1/2048 := by
    norm_num [specTarget, histC1, List.range', List.range_succ]
  intro heq
  rw [heq, h2] at h1
  norm_num at h1

/-- The 4-step trajectory with rewards [1, 0, 0, 0]. -/
def histB : List HistEntry := [([], 0, 1), ([], 0, 0), ([], 0, 0), ([], 0, 0)]

/-- C1 (amended): the computed TD(λ) target array has one entry per
trajectory step and satisfies, for every i < n, the truncated-geometric
closed form target[i] = Σ_{k < min(min(10,n), n−i)} r[i+k]·(1−λ)·λ^k — that
is, the base pass target[i] = r[i]·(1−λ) plus lookahead passes for k from 1
up to min(10, n) − 1 = min(9, n−1), one less than the spec's min(10, n−1);
the computation coincides with the spec's algorithm exactly whenever
n ≤ 10; a single-step trajectory executes only the base pass; and for
rewards [1,0,0,0] with λ = 1/2 the targets are [1/2, 0, 0, 0], in particular
target[0] = 1/2 and target[3] = 0. -/
theorem C1_td_lambda_closed_form (history : List HistEntry) (llambda : ℚ) :
    (td_lambda_estimate history llambda).length = history.length
    ∧ (∀ i, i < history.length →
        (td_lambda_estimate history llambda).getD i 0
          = ∑ k ∈ Finset.range (min (min 10 history.length) (history.length - i)),
              (history.getD (i + k) ([], 0, 0)).2.2 * ((1 - llambda) * llambda ^ k))
    ∧ (history.length ≤ 10 →
        td_lambda_estimate history llambda
          = specTarget (history.map fun h => h.2.2) llambda)
    ∧ (∀ e : HistEntry,
        td_lambda_estimate [e] llambda = [e.2.2 * ((1 - llambda) * llambda ^ 0)])
    ∧ td_lambda_estimate histB (1/2) = [1/2, 0, 0, 0] := by
  have hbase_eq : (history.foldl
      (fun est h => est ++ [h.2.2 * ((1 - llambda) * llambda ^ 0)]) [])
      = history.map (fun h => h.2.2 * ((1 - llambda) * llambda ^ 0)) :=
    (foldl_append_map (fun h => h.2.2 * ((1 - llambda) * llambda ^ 0)) history
      []).trans (List.nil_append _)
  have hTd : td_lambda_estimate history llambda
      = (List.range' 1 (min 10 history.length - 1)).foldl
          (fun est td_factor =>
            (List.range (history.length - td_factor)).foldl
              (fun e i =>
                e.set i (e.getD i 0
                  + (history.getD (i + td_factor) ([], 0, 0)).2.2
                    * ((1 - llambda) * llambda ^ td_factor)))
              est)
          (history.map (fun h => h.2.2 * ((1 - llambda) * llambda ^ 0))) := by
    simp only [td_lambda_estimate]
    rw [hbase_eq]
  have hmain := getD_outer_fold history.length
    (fun k i => (history.getD (i + k) ([], 0, 0)).2.2 * ((1 - llambda) * llambda ^ k))
    (List.range' 1 (min 10 history.length - 1))
    (history.map (fun h => h.2.2 * ((1 - llambda) * llambda ^ 0)))
    (by simp)
  refine ⟨?_, ?_, ?_, fun e => rfl, ?_⟩
  · rw [hTd]
    exact (hmain 0).2
  · intro i hi
    calc (td_lambda_estimate history llambda).getD i 0
        = (history.map (fun h => h.2.2 * ((1 - llambda) * llambda ^ 0))).getD i 0
          + (((List.range' 1 (min 10 history.length - 1)).filter
              (fun k => i + k < history.length)).map
              (fun k => (history.getD (i + k) ([], 0, 0)).2.2
                * ((1 - llambda) * llambda ^ k))).sum := by
          rw [hTd]
          exact (hmain i).1
      _ = (if i + 0 < history.length then
            (history.getD (i + 0) ([], 0, 0)).2.2 * ((1 - llambda) * llambda ^ 0)
            else 0)
          + ∑ k ∈ Finset.Ico 1 (min 10 history.length - 1 + 1),
              if i + k < history.length then
                (history.getD (i + k) ([], 0, 0)).2.2 * ((1 - llambda) * llambda ^ k)
              else 0 := by
          rw [filter_range_sum history.length i
            (fun k => (history.getD (i + k) ([], 0, 0)).2.2
              * ((1 - llambda) * llambda ^ k)) (min 10 history.length - 1)]
          congr 1
          rw [if_pos (show i + 0 < history.length from by omega)]
          rw [List.getD_eq_getElem _ _ (by rw [List.length_map]; exact hi),
            List.getElem_map]
          simp only [Nat.add_zero]
          rw [List.getD_eq_getElem _ _ hi]
      _ = ∑ k ∈ Finset.range (min 10 history.length - 1 + 1),
            if i + k < history.length then
              (history.getD (i + k) ([], 0, 0)).2.2 * ((1 - llambda) * llambda ^ k)
            else 0 :=
          ico_to_range_sum (min 10 history.length - 1)
            (fun k => if i + k < history.length then
              (history.getD (i + k) ([], 0, 0)).2.2 * ((1 - llambda) * llambda ^ k)
              else 0)
      _ = ∑ k ∈ Finset.range (min (min 10 history.length) (history.length - i)),
            (history.getD (i + k) ([], 0, 0)).2.2
              * ((1 - llambda) * llambda ^ k) := by
          rw [show min 10 history.length - 1 + 1 = min 10 history.length from by omega]
          exact ite_range_sum (min 10 history.length) history.length i
            (fun k => (history.getD (i + k) ([], 0, 0)).2.2
              * ((1 - llambda) * llambda ^ k))
  · intro h10
    have hfun : (fun (e : List ℚ) (k : ℕ) =>
        (List.range (history.length - k)).foldl
          (fun e2 i => e2.set i (e2.getD i 0
            + (history.map fun h => h.2.2).getD (i + k) 0
              * ((1 - llambda) * llambda ^ k))) e)
        = (fun (e : List ℚ) (k : ℕ) =>
        (List.range (history.length - k)).foldl
          (fun e2 i => e2.set i (e2.getD i 0
            + (history.getD (i + k) ([], 0, 0)).2.2
              * ((1 - llambda) * llambda ^ k))) e) := by
      funext e k
      have hbody : (fun (e2 : List ℚ) (i : ℕ) => e2.set i (e2.getD i 0
          + (history.map fun h => h.2.2).getD (i + k) 0
            * ((1 - llambda) * llambda ^ k)))
          = (fun (e2 : List ℚ) (i : ℕ) => e2.set i (e2.getD i 0
          + (history.getD (i + k) ([], 0, 0)).2.2
            * ((1 - llambda) * llambda ^ k))) := by
        funext e2 i
        rw [getD_map_snd]
      rw [hbody]
    have hbase2 : ((history.map fun h => h.2.2).map fun r => r * (1 - llambda))
        = history.map (fun h => h.2.2 * ((1 - llambda) * llambda ^ 0)) := by
      rw [List.map_map]
      have hcomp : ((fun r => r * (1 - llambda)) ∘ (fun (h : HistEntry) => h.2.2))
          = fun (h : HistEntry) => h.2.2 * ((1 - llambda) * llambda ^ 0) := by
        funext h
        simp [Function.comp]
      rw [hcomp]
    rw [hTd]
    simp only [specTarget, List.length_map]
    rw [hfun, hbase2,
      show min 10 (history.length - 1) = min 10 history.length - 1 from by omega]
  · norm_num [td_lambda_estimate, histB, List.range', List.range_succ]

/-- Witness for C1's amended statement: the closed form instantiated at
entry 0 of the 4-step trajectory with λ = 1/2. -/
theorem C1_td_lambda_closed_form_witness :
    (td_lambda_estimate histB (1/2)).getD 0 0
      = ∑ k ∈ Finset.range (min (min 10 histB.length) (histB.length - 0)),
          (histB.getD (0 + k) ([], 0, 0)).2.2 * ((1 - (1/2 : ℚ)) * (1/2) ^ k) :=
  (C1_td_lambda_closed_form histB (1/2)).2.1 0 (by decide)
